import Mathlib

/-!
# Verification of the peer-lease lease-and-recycling state machine

This development shallowly embeds the lease state store, the pending-release
staging protocol and the fallback fenced mutex of the peer-lease library
(src/peer-lease.ts, second revision with pending staging, and src/lock.ts),
and proves the specified properties about them.

Conventions of the embedding:
* JavaScript objects used as string-keyed records are modelled as association
  lists in insertion order (assignment updates the value in place, or appends).
* JavaScript `Map` dedup passes are modelled the same way (`mapSet`).
* Persisted raw storage values are modelled per key by a typed inductive:
  a `garbage` constructor stands for an unparsable string, the structured
  constructor carries the parse result together with a `tag` distinguishing
  textually different spellings of the same parse result (canonical
  `JSON.stringify` output always uses tag 0), so that equality of the model
  values coincides with string equality of the raw values.
* Timestamps, fences and comparator results are `Int`; an `undefined`
  comparator result is `none`.
-/

namespace PeerLease

/-- Entry of the `available` pool: a released peer id with the version its
releaser confirmed (interface CachedPeerId of peer-lease.ts). -/
structure CachedPeerId where
  id : String
  version : String
deriving DecidableEq, Repr

/-- Value of the `active` map: when the id was leased and with which caller
version (interface ActiveLeaseInfo of peer-lease.ts). -/
structure ActiveLeaseInfo where
  leasedAt : Int
  version : String
deriving DecidableEq, Repr

/-- The per-document lease state (interface LeaseState of peer-lease.ts):
the ordered pool of recyclable ids and the map of ids currently on lease.
The `active` record is an association list in insertion order. -/
structure LeaseState where
  available : List CachedPeerId
  active : List (String × ActiveLeaseInfo)
deriving DecidableEq, Repr

/-- Staleness threshold: active entries at least this old are discarded
(const LEASE_STALE_AFTER_MS = 24 * 60 * 60 * 1000). -/
def LEASE_STALE_AFTER_MS : Int := 24 * 60 * 60 * 1000

/-- Generation retry cap (const MAX_GENERATION_ATTEMPTS = 32). -/
def MAX_GENERATION_ATTEMPTS : Nat := 32

/-- Lock TTL of the fallback mutex (const LOCK_TTL_MS = 10_000). -/
def LOCK_TTL_MS : Int := 10000

/-- Lookup in a string-keyed record modelled as an association list;
`some` exactly when the JavaScript record has the key. -/
def activeLookup (active : List (String × ActiveLeaseInfo)) (k : String) :
    Option ActiveLeaseInfo :=
  match active with
  | [] => none
  | p :: rest => if p.1 = k then some p.2 else activeLookup rest k

/-- JavaScript `delete record[k]`: drop the entries with key `k`. -/
def activeErase (active : List (String × ActiveLeaseInfo)) (k : String) :
    List (String × ActiveLeaseInfo) :=
  active.filter (fun p => !(p.1 == k))

/-- JavaScript `record[k] = v`: update the value in place if the key exists,
otherwise append the new binding. -/
def activeInsert (active : List (String × ActiveLeaseInfo)) (k : String)
    (v : ActiveLeaseInfo) : List (String × ActiveLeaseInfo) :=
  match active with
  | [] => [(k, v)]
  | p :: rest => if p.1 = k then (k, v) :: rest else p :: activeInsert rest k v

/-- JavaScript `Map.set k v`: update the value in place keeping the key's
original position, or append a new binding. -/
def mapSet (m : List (String × String)) (k v : String) :
    List (String × String) :=
  match m with
  | [] => [(k, v)]
  | p :: rest => if p.1 = k then (k, v) :: rest else p :: mapSet rest k v

/-- The recycling scan of acquirePeerId (peer-lease.ts:619-628): walk
`available` in order, return the first entry whose comparator result is
defined and non-negative, together with the pool with that entry spliced out;
`none` when no entry qualifies. -/
def selectRecycled (cmp : String → String → Option Int) (version : String) :
    List CachedPeerId → Option (CachedPeerId × List CachedPeerId)
  | [] => none
  | e :: rest =>
    match cmp version e.version with
    | some c =>
      if 0 ≤ c then some (e, rest)
      else
        match selectRecycled cmp version rest with
        | some (p, rest') => some (p, e :: rest')
        | none => none
    | none =>
      match selectRecycled cmp version rest with
      | some (p, rest') => some (p, e :: rest')
      | none => none

/-- Errors surfaced by the acquisition path of peer-lease.ts. -/
inductive AcquireError where
  | emptyGenerated
  | exhausted
deriving DecidableEq, Repr

/-- Generation loop of generateUniquePeerId (peer-lease.ts:996-1013),
with the impure generator modelled as the stream of its successive return
values: `attempt` is the index of the next call, the second argument the
remaining attempts out of MAX_GENERATION_ATTEMPTS. -/
def genUniqFrom (gen : Nat → String) (used : List String) :
    Nat → Nat → Except AcquireError String
  | _, 0 => .error .exhausted
  | attempt, remaining + 1 =>
    let candidate := gen attempt
    if candidate = "" then .error .emptyGenerated
    else if candidate ∈ used then genUniqFrom gen used (attempt + 1) remaining
    else .ok candidate

/-- generateUniquePeerId (peer-lease.ts:996-1013): mint a fresh id, retrying
on collision with `used` up to MAX_GENERATION_ATTEMPTS times. -/
def generateUniquePeerId (gen : Nat → String) (used : List String) :
    Except AcquireError String :=
  genUniqFrom gen used 0 MAX_GENERATION_ATTEMPTS

/-- Ids known to the state: available pool ids together with active keys
(the `used` set built at peer-lease.ts:631-638). -/
def usedIds (st : LeaseState) : List String :=
  st.available.map (fun e => e.id) ++ st.active.map (fun p => p.1)

/-- The state mutator run by acquirePeerId inside withState
(peer-lease.ts:616-650): recycle the first qualifying available entry, or
mint a fresh id avoiding every known id; then record the chosen id in
`active` with the current timestamp and the caller's version. The dead
defensive re-check of non-emptiness (line 641) cannot fire: a recycled id of
the (unreachable at rest) empty string falls through to minting exactly as
in the source, and minted ids are checked non-empty. -/
def acquireMutator (cmp : String → String → Option Int) (gen : Nat → String)
    (version : String) (now : Int) (st : LeaseState) :
    Except AcquireError (String × LeaseState) :=
  match selectRecycled cmp version st.available with
  | some (e, rest) =>
    if e.id = "" then
      match generateUniquePeerId gen
          (rest.map (fun x => x.id) ++ st.active.map (fun p => p.1)) with
      | .error err => .error err
      | .ok pid =>
        .ok (pid, ⟨rest, activeInsert st.active pid ⟨now, version⟩⟩)
    else
      .ok (e.id, ⟨rest, activeInsert st.active e.id ⟨now, version⟩⟩)
  | none =>
    match generateUniquePeerId gen (usedIds st) with
    | .error err => .error err
    | .ok pid =>
      .ok (pid, ⟨st.available, activeInsert st.active pid ⟨now, version⟩⟩)

/-- cleanupState (peer-lease.ts:941-957): run at the start of every state
mutation; deletes every active entry that is malformed (in the model: empty
version — the number checks on `leasedAt` always pass for an `Int`) or whose
age has reached LEASE_STALE_AFTER_MS. Never touches `available`. -/
def cleanupStateFn (st : LeaseState) (now : Int) : LeaseState :=
  ⟨st.available,
   st.active.filter (fun p =>
     !(p.2.version == "") && decide (now - p.2.leasedAt < LEASE_STALE_AFTER_MS))⟩

/-- The available-pool dedup pass of normalizeState (peer-lease.ts:960-976):
fold the pool through a Map, skipping malformed entries and entries whose id
is a key of `active`. -/
def normDedup (active : List (String × ActiveLeaseInfo)) :
    List CachedPeerId → List (String × String) → List (String × String)
  | [], acc => acc
  | e :: rest, acc =>
    if e.id = "" ∨ e.version = "" then normDedup active rest acc
    else if (activeLookup active e.id).isSome then normDedup active rest acc
    else normDedup active rest (mapSet acc e.id e.version)

/-- normalizeState (peer-lease.ts:959-994): re-assert the disjointness
invariant before persistence — rebuild `available` from the dedup Map and
drop malformed `active` entries. -/
def normalizeStateFn (st : LeaseState) : LeaseState :=
  ⟨(normDedup st.active st.available []).map (fun p => ⟨p.1, p.2⟩),
   st.active.filter (fun p => !(p.1 == "") && !(p.2.version == ""))⟩

/-- One element of a persisted pending-release array as it parses:
either an object with string `id` and `version` fields, or anything else
(non-object, wrong field types), which the parser skips. -/
inductive PendingItem where
  | okPair (id : String) (version : String)
  | badItem (g : Nat)
deriving DecidableEq, Repr

/-- Raw value of the pending key: unparsable or non-array JSON (`garbage`),
or a JSON array of items; `tag` distinguishes textually different spellings
of the same array, canonical `JSON.stringify` output being tag 0. -/
inductive PRaw where
  | garbage (g : Nat)
  | arrOf (items : List PendingItem) (tag : Nat)
deriving DecidableEq, Repr

/-- parsePendingEntries (peer-lease.ts:912-939): absent, unparsable or
non-array values yield the empty list; array items are kept only when they
carry non-empty string `id` and `version` fields. -/
def parsePendingEntries : Option PRaw → List CachedPeerId
  | none => []
  | some (.garbage _) => []
  | some (.arrOf items _) =>
    items.filterMap (fun it =>
      match it with
      | .okPair i v => if i = "" ∨ v = "" then none else some ⟨i, v⟩
      | .badItem _ => none)

/-- writePendingReleases (peer-lease.ts:830-837): remove the key when the
list is empty, else store the canonical stringification. -/
def writePendingReleases (entries : List CachedPeerId) : Option PRaw :=
  if entries = [] then none
  else some (.arrOf (entries.map (fun e => .okPair e.id e.version)) 0)

/-- The shared dedup fold over pending entries (used by stagePendingRelease
and drainPendingReleases): last write per id wins, first occurrence keeps the
position. -/
def pairsDedup : List CachedPeerId → List (String × String) →
    List (String × String)
  | [], acc => acc
  | e :: rest, acc =>
    if e.id = "" ∨ e.version = "" then pairsDedup rest acc
    else pairsDedup rest (mapSet acc e.id e.version)

/-- stagePendingRelease (peer-lease.ts:802-823): outside the mutex,
read-modify-write the pending buffer, upserting the new entry. -/
def stagePendingRelease (cell : Option PRaw) (entry : CachedPeerId) :
    Option PRaw :=
  let pending := parsePendingEntries cell
  let dedup := pairsDedup pending []
  let dedup' := if entry.id = "" ∨ entry.version = "" then dedup
                else mapSet dedup entry.id entry.version
  writePendingReleases (dedup'.map (fun p => ⟨p.1, p.2⟩))

/-- Result of the drain phase (interface PendingDrainResult): the raw
snapshot read from storage and the deduplicated entries folded in. -/
structure PendingDrainResult where
  snapshot : Option PRaw
  entries : List CachedPeerId
deriving DecidableEq, Repr

/-- Loop body of the drain fold (peer-lease.ts:856-867): delete the staged
id from `active`, splice the first matching pool entry, push the staged
pair at the end of the pool. -/
def drainStep (s : LeaseState) (p : String × String) : LeaseState :=
  ⟨(s.available.eraseP (fun e => e.id == p.1)) ++ [⟨p.1, p.2⟩],
   activeErase s.active p.1⟩

/-- drainPendingReleases (peer-lease.ts:839-873): fold every staged
`{id, version}` into the state via `drainStep` and remember the raw
snapshot. -/
def drainPendingReleases (cell : Option PRaw) (st : LeaseState) :
    PendingDrainResult × LeaseState :=
  let entries := parsePendingEntries cell
  if entries = [] then (⟨cell, []⟩, st)
  else
    let dedup := pairsDedup entries []
    let st' := dedup.foldl drainStep st
    (⟨cell, dedup.map (fun p => ⟨p.1, p.2⟩)⟩, st')

/-- The removal loop of finalizePendingReleases (peer-lease.ts:895-903):
for each folded entry, splice the first remaining entry matching both id and
version; the Bool tracks the `changed` flag. -/
def removeFoldedAux : List CachedPeerId → List CachedPeerId → Bool →
    List CachedPeerId × Bool
  | [], remaining, changed => (remaining, changed)
  | e :: rest, remaining, changed =>
    if (remaining.find? (fun c => c.id == e.id && c.version == e.version)).isSome
    then removeFoldedAux rest
      (remaining.eraseP (fun c => c.id == e.id && c.version == e.version)) true
    else removeFoldedAux rest remaining changed

/-- finalizePendingReleases (peer-lease.ts:875-910): after persisting the
state, clear the pending key when its raw value is unchanged since the drain
snapshot; otherwise splice out exactly the folded entries and keep the rest. -/
def finalizePendingReleases (cell : Option PRaw)
    (pending : PendingDrainResult) : Option PRaw :=
  if pending.entries = [] then cell
  else
    match cell with
    | none => none
    | some currentRaw =>
      if pending.snapshot = some currentRaw then none
      else
        let remaining := parsePendingEntries (some currentRaw)
        let res := removeFoldedAux pending.entries remaining false
        if res.2 then writePendingReleases res.1 else some currentRaw

/-- One element of a persisted `available` array as it parses: an object
with string `id` and `version` fields, or anything the parser skips. -/
inductive AvailField where
  | okEntry (id : String) (version : String)
  | badEntry (g : Nat)
deriving DecidableEq, Repr

/-- One field of a persisted `active` object as it parses: a key with an
object value carrying a finite-number `leasedAt` and a string `version`, or
a field whose value the parser skips. -/
inductive ActiveField where
  | okA (key : String) (leasedAt : Int) (version : String)
  | badA (g : Nat)
deriving DecidableEq, Repr

/-- Raw value of the state key: unparsable JSON (`garbage`), or a parse
result with optional `available` array and `active` object (absent or
non-array/non-object fields are `none`); `tag` distinguishes textually
different spellings, canonical `JSON.stringify` output being tag 0. -/
inductive SRaw where
  | garbage (g : Nat)
  | doc (avail : Option (List AvailField)) (act : Option (List ActiveField))
      (tag : Nat)
deriving DecidableEq, Repr

/-- readState (peer-lease.ts:736-791): absent or unparsable values yield the
empty state; otherwise well-typed entries with non-empty strings are kept,
`active` fields being folded through record assignment. -/
def readStateFn : Option SRaw → LeaseState
  | none => ⟨[], []⟩
  | some (.garbage _) => ⟨[], []⟩
  | some (.doc avail? act? _) =>
    ⟨(avail?.getD []).filterMap (fun f =>
        match f with
        | .okEntry i v => if i = "" ∨ v = "" then none
                          else some (⟨i, v⟩ : CachedPeerId)
        | .badEntry _ => none),
     (act?.getD []).foldl (fun acc f =>
        match f with
        | .okA k t v => if k = "" ∨ v = "" then acc
                        else activeInsert acc k ⟨t, v⟩
        | .badA _ => acc) []⟩

/-- writeState (peer-lease.ts:793-800): remove the state key when both parts
are empty, else store the canonical stringification. -/
def writeStateFn (st : LeaseState) : Option SRaw :=
  if st.available = [] ∧ st.active = [] then none
  else some (.doc (some (st.available.map (fun e => .okEntry e.id e.version)))
    (some (st.active.map (fun p => .okA p.1 p.2.leasedAt p.2.version))) 0)

/-- The two document-scoped storage cells the lease protocol mutates:
the state key and the pending key. -/
structure LeaseStore where
  state : Option SRaw
  pending : Option PRaw
deriving DecidableEq, Repr

/-- withState (peer-lease.ts:720-734) run sequentially against the store:
read the state, drain pending releases into it, expire stale active entries,
run the mutator, normalize, persist, and finalize the drained pending
entries. The mutator is modelled as a pure function returning the new state
and its result. -/
def withStateRun {α : Type} (mutator : LeaseState → LeaseState × α) (now : Int)
    (s : LeaseStore) : α × LeaseStore :=
  let dr := drainPendingReleases s.pending (readStateFn s.state)
  let st2 := cleanupStateFn dr.2 now
  let mr := mutator st2
  (mr.2, ⟨writeStateFn (normalizeStateFn mr.1),
          finalizePendingReleases s.pending dr.1⟩)

/-- The in-memory state of a withState run just after normalization and
before persistence. -/
def prePersistState {α : Type} (mutator : LeaseState → LeaseState × α) (now : Int)
    (s : LeaseStore) : LeaseState :=
  normalizeStateFn
    (mutator (cleanupStateFn
      (drainPendingReleases s.pending (readStateFn s.state)).2 now)).1

/-- The upsert of flushRelease (peer-lease.ts:709-714): replace the first
pool entry with the released id in place, or push the pair at the end. -/
def upsertAvail (value version : String) :
    List CachedPeerId → List CachedPeerId
  | [] => [⟨value, version⟩]
  | e :: rest =>
    if e.id = value then ⟨value, version⟩ :: rest
    else e :: upsertAvail value version rest

/-- The state mutator of createReleaseHandlers.flushRelease
(peer-lease.ts:699-716): drop the id from `active` when present and upsert
`{id, version}` into `available` unconditionally. -/
def flushReleaseMutator (value version : String) (st : LeaseState) :
    LeaseState :=
  ⟨upsertAvail value version st.available,
   if (activeLookup st.active value).isSome then activeErase st.active value
   else st.active⟩

/-! ## Helper lemmas about the recycling scan -/

lemma selectRecycled_some_spec (cmp : String → String → Option Int)
    (v : String) :
    ∀ (l : List CachedPeerId) (e : CachedPeerId) (rest : List CachedPeerId),
      selectRecycled cmp v l = some (e, rest) →
      ∃ c, cmp v e.version = some c ∧ 0 ≤ c ∧
        ∃ pre post, l = pre ++ e :: post ∧ rest = pre ++ post ∧
          ∀ x ∈ pre, cmp v x.version = none ∨
            ∃ d, cmp v x.version = some d ∧ d < 0 := by
  intro l
  induction l with
  | nil => intro e rest h; simp [selectRecycled] at h
  | cons a tl ih =>
    intro e rest h
    cases hc : cmp v a.version with
    | some c =>
      by_cases hle : 0 ≤ c
      · have hsel : selectRecycled cmp v (a :: tl) = some (a, tl) := by
          simp [selectRecycled, hc, hle]
        rw [hsel] at h
        obtain ⟨rfl, rfl⟩ := Prod.mk.injEq .. ▸ (Option.some.injEq .. ▸ h)
        exact ⟨c, hc, hle, [], tl, rfl, rfl, by simp⟩
      · cases hsub : selectRecycled cmp v tl with
        | none =>
          have : selectRecycled cmp v (a :: tl) = none := by
            simp [selectRecycled, hc, hle, hsub]
          rw [this] at h; exact absurd h (by simp)
        | some pr =>
          obtain ⟨p, rest'⟩ := pr
          have hsel : selectRecycled cmp v (a :: tl) = some (p, a :: rest') := by
            simp [selectRecycled, hc, hle, hsub]
          rw [hsel] at h
          obtain ⟨rfl, rfl⟩ := Prod.mk.injEq .. ▸ (Option.some.injEq .. ▸ h)
          obtain ⟨c', hcmp, hle', pre, post, hl, hr, hpre⟩ := ih p rest' hsub
          refine ⟨c', hcmp, hle', a :: pre, post, by simp [hl], by simp [hr], ?_⟩
          intro x hx
          rcases List.mem_cons.mp hx with rfl | hx'
          · exact Or.inr ⟨c, hc, lt_of_not_le hle⟩
          · exact hpre x hx'
    | none =>
      cases hsub : selectRecycled cmp v tl with
      | none =>
        have : selectRecycled cmp v (a :: tl) = none := by
          simp [selectRecycled, hc, hsub]
        rw [this] at h; exact absurd h (by simp)
      | some pr =>
        obtain ⟨p, rest'⟩ := pr
        have hsel : selectRecycled cmp v (a :: tl) = some (p, a :: rest') := by
          simp [selectRecycled, hc, hsub]
        rw [hsel] at h
        obtain ⟨rfl, rfl⟩ := Prod.mk.injEq .. ▸ (Option.some.injEq .. ▸ h)
        obtain ⟨c', hcmp, hle', pre, post, hl, hr, hpre⟩ := ih p rest' hsub
        refine ⟨c', hcmp, hle', a :: pre, post, by simp [hl], by simp [hr], ?_⟩
        intro x hx
        rcases List.mem_cons.mp hx with rfl | hx'
        · exact Or.inl hc
        · exact hpre x hx'

lemma selectRecycled_none_spec (cmp : String → String → Option Int)
    (v : String) :
    ∀ (l : List CachedPeerId), selectRecycled cmp v l = none →
      ∀ e ∈ l, cmp v e.version = none ∨
        ∃ d, cmp v e.version = some d ∧ d < 0 := by
  intro l
  induction l with
  | nil => intro _ e he; cases he
  | cons a tl ih =>
    intro h e he
    cases hc : cmp v a.version with
    | some c =>
      by_cases hle : 0 ≤ c
      · have : selectRecycled cmp v (a :: tl) = some (a, tl) := by
          simp [selectRecycled, hc, hle]
        rw [this] at h; exact absurd h (by simp)
      · cases hsub : selectRecycled cmp v tl with
        | none =>
          rcases List.mem_cons.mp he with rfl | he'
          · exact Or.inr ⟨c, hc, lt_of_not_le hle⟩
          · exact ih hsub e he'
        | some pr =>
          obtain ⟨p, rest'⟩ := pr
          have : selectRecycled cmp v (a :: tl) = some (p, a :: rest') := by
            simp [selectRecycled, hc, hle, hsub]
          rw [this] at h; exact absurd h (by simp)
    | none =>
      cases hsub : selectRecycled cmp v tl with
      | none =>
        rcases List.mem_cons.mp he with rfl | he'
        · exact Or.inl hc
        · exact ih hsub e he'
      | some pr =>
        obtain ⟨p, rest'⟩ := pr
        have : selectRecycled cmp v (a :: tl) = some (p, a :: rest') := by
          simp [selectRecycled, hc, hsub]
        rw [this] at h; exact absurd h (by simp)

lemma selectRecycled_mem (cmp : String → String → Option Int) (v : String)
    (l : List CachedPeerId) (e : CachedPeerId) (rest : List CachedPeerId)
    (h : selectRecycled cmp v l = some (e, rest)) : e ∈ l := by
  obtain ⟨_, _, _, pre, post, hl, _, _⟩ := selectRecycled_some_spec cmp v l e rest h
  subst hl; simp

/-! ## Helper lemmas about the generation loop -/

lemma genUniqFrom_ok_spec (gen : Nat → String) (used : List String) :
    ∀ (f a : Nat) (c : String), genUniqFrom gen used a f = .ok c →
      ∃ k, a ≤ k ∧ k < a + f ∧ c = gen k ∧ gen k ≠ "" ∧ c ∉ used ∧
        ∀ j, a ≤ j → j < k → gen j ≠ "" ∧ gen j ∈ used := by
  intro f
  induction f with
  | zero => intro a c h; simp [genUniqFrom] at h
  | succ n ih =>
    intro a c h
    rw [genUniqFrom] at h
    by_cases he : gen a = ""
    · simp [he] at h
    · by_cases hu : gen a ∈ used
      · simp [he, hu] at h
        obtain ⟨k, hk1, hk2, hk3, hk4, hk5, hk6⟩ := ih (a + 1) c h
        refine ⟨k, by omega, by omega, hk3, hk4, hk5, ?_⟩
        intro j hj1 hj2
        rcases Nat.lt_or_ge j (a + 1) with hj | hj
        · have : j = a := by omega
          subst this; exact ⟨he, hu⟩
        · exact hk6 j hj hj2
      · simp [he, hu] at h
        exact ⟨a, le_refl a, by omega, h.symm, he, h ▸ hu, by omega⟩

lemma genUniqFrom_exhausted_spec (gen : Nat → String) (used : List String) :
    ∀ (f a : Nat), genUniqFrom gen used a f = .error .exhausted →
      ∀ j, a ≤ j → j < a + f → gen j ≠ "" ∧ gen j ∈ used := by
  intro f
  induction f with
  | zero => intro a _ j h1 h2; omega
  | succ n ih =>
    intro a h j hj1 hj2
    rw [genUniqFrom] at h
    by_cases he : gen a = ""
    · simp [he] at h
    · by_cases hu : gen a ∈ used
      · simp [he, hu] at h
        rcases Nat.lt_or_ge j (a + 1) with hj | hj
        · have : j = a := by omega
          subst this; exact ⟨he, hu⟩
        · exact ih (a + 1) h j hj (by omega)
      · simp [he, hu] at h

lemma genUniqFrom_empty_spec (gen : Nat → String) (used : List String) :
    ∀ (f a : Nat), genUniqFrom gen used a f = .error .emptyGenerated →
      ∃ k, a ≤ k ∧ k < a + f ∧ gen k = "" ∧
        ∀ j, a ≤ j → j < k → gen j ≠ "" ∧ gen j ∈ used := by
  intro f
  induction f with
  | zero => intro a h; simp [genUniqFrom] at h
  | succ n ih =>
    intro a h
    rw [genUniqFrom] at h
    by_cases he : gen a = ""
    · exact ⟨a, le_refl a, by omega, he, by omega⟩
    · by_cases hu : gen a ∈ used
      · simp [he, hu] at h
        obtain ⟨k, hk1, hk2, hk3, hk4⟩ := ih (a + 1) h
        refine ⟨k, by omega, by omega, hk3, ?_⟩
        intro j hj1 hj2
        rcases Nat.lt_or_ge j (a + 1) with hj | hj
        · have : j = a := by omega
          subst this; exact ⟨he, hu⟩
        · exact hk4 j hj hj2
      · simp [he, hu] at h

lemma genUniqFrom_congr (gen gen' : Nat → String) (used : List String) :
    ∀ (f a : Nat), a + f = MAX_GENERATION_ATTEMPTS →
      (∀ i, i < MAX_GENERATION_ATTEMPTS → gen i = gen' i) →
      genUniqFrom gen used a f = genUniqFrom gen' used a f := by
  intro f
  induction f with
  | zero => intro a _ _; rfl
  | succ n ih =>
    intro a htot hagree
    rw [genUniqFrom, genUniqFrom]
    have ha : gen a = gen' a := hagree a (by omega)
    rw [ha]
    by_cases he : gen' a = ""
    · simp [he]
    · by_cases hu : gen' a ∈ used
      · simp [he, hu]
        exact ih (a + 1) (by omega) hagree
      · simp [he, hu]

lemma generateUniquePeerId_ok_not_mem (gen : Nat → String)
    (used : List String) (c : String)
    (h : generateUniquePeerId gen used = .ok c) : c ∉ used := by
  obtain ⟨_, _, _, _, _, h5, _⟩ :=
    genUniqFrom_ok_spec gen used MAX_GENERATION_ATTEMPTS 0 c h
  exact h5

/-! ## Claim theorems C1 and C7 -/

/-- C1: whenever acquirePeerId recycles an id, the recycled id is the first
entry of the available pool in scan order whose comparator result against the
caller version is defined and non-negative; that entry is removed from the
pool while every earlier entry — all of which are either incomparable
(undefined result) or have a negative result — remains; and when the scan
recycles nothing, every pool entry is incomparable or negative. -/
theorem claim_C1_recycling_scan (cmp : String → String → Option Int)
    (version : String) (l : List CachedPeerId) :
    (∀ e rest, selectRecycled cmp version l = some (e, rest) →
      ∃ c, cmp version e.version = some c ∧ 0 ≤ c ∧
        ∃ pre post, l = pre ++ e :: post ∧ rest = pre ++ post ∧
          ∀ x ∈ pre, cmp version x.version = none ∨
            ∃ d, cmp version x.version = some d ∧ d < 0) ∧
    (selectRecycled cmp version l = none →
      ∀ e ∈ l, cmp version e.version = none ∨
        ∃ d, cmp version e.version = some d ∧ d < 0) :=
  ⟨fun e rest h => selectRecycled_some_spec cmp version l e rest h,
   fun h => selectRecycled_none_spec cmp version l h⟩

/-- Witness for C1 at a concrete pool: with a comparator defined only on
equal strings, the scan skips the incomparable head and recycles the second
entry, removing it and keeping the head. -/
theorem claim_C1_witness :
    selectRecycled (fun a b => if a = b then some 0 else none) "v"
        [⟨"p", "x"⟩, ⟨"q", "v"⟩] = some (⟨"q", "v"⟩, [⟨"p", "x"⟩]) ∧
    ∃ c, (fun a b : String => if a = b then some (0 : Int) else none) "v" "v"
        = some c ∧ 0 ≤ c ∧
      ∃ pre post, ([⟨"p", "x"⟩, ⟨"q", "v"⟩] : List CachedPeerId)
          = pre ++ ⟨"q", "v"⟩ :: post ∧ [⟨"p", "x"⟩] = pre ++ post ∧
        ∀ x ∈ pre,
          (fun a b : String => if a = b then some (0 : Int) else none) "v"
              x.version = none ∨
          ∃ d, (fun a b : String => if a = b then some (0 : Int) else none)
              "v" x.version = some d ∧ d < 0 :=
  ⟨by decide,
   (claim_C1_recycling_scan (fun a b => if a = b then some 0 else none) "v"
      [⟨"p", "x"⟩, ⟨"q", "v"⟩]).1 ⟨"q", "v"⟩ [⟨"p", "x"⟩] (by decide)⟩

/-- C7: when no available entry qualifies, the minting generator is invoked
at most MAX_GENERATION_ATTEMPTS = 32 times (the outcome depends only on the
first 32 generated values); a generated id colliding with a known id is
retried; if all 32 attempts collide the exhaustion error is thrown; and a
generator returning an empty id fails immediately, every earlier attempt
having been a collision. -/
theorem claim_C7_generator_exhaustion (gen : Nat → String)
    (used : List String) :
    (∀ c, generateUniquePeerId gen used = .ok c →
      ∃ k, k < 32 ∧ c = gen k ∧ c ∉ used ∧
        ∀ j, j < k → gen j ≠ "" ∧ gen j ∈ used) ∧
    (generateUniquePeerId gen used = .error .exhausted ↔
      ∀ j, j < 32 → gen j ≠ "" ∧ gen j ∈ used) ∧
    (generateUniquePeerId gen used = .error .emptyGenerated ↔
      ∃ k, k < 32 ∧ gen k = "" ∧ ∀ j, j < k → gen j ≠ "" ∧ gen j ∈ used) ∧
    (∀ gen', (∀ i, i < 32 → gen i = gen' i) →
      generateUniquePeerId gen used = generateUniquePeerId gen' used) := by
  have hmax : MAX_GENERATION_ATTEMPTS = 32 := rfl
  refine ⟨?_, ⟨?_, ?_⟩, ⟨?_, ?_⟩, ?_⟩
  · intro c h
    obtain ⟨k, hk1, hk2, hk3, hk4, hk5, hk6⟩ :=
      genUniqFrom_ok_spec gen used MAX_GENERATION_ATTEMPTS 0 c h
    exact ⟨k, by omega, hk3, hk5, fun j hj => hk6 j (by omega) hj⟩
  · intro h j hj
    exact genUniqFrom_exhausted_spec gen used MAX_GENERATION_ATTEMPTS 0 h j
      (by omega) (by omega)
  · intro hall
    rcases hres : generateUniquePeerId gen used with err | c
    · cases err with
      | emptyGenerated =>
        obtain ⟨k, _, hk2, hk3, _⟩ :=
          genUniqFrom_empty_spec gen used MAX_GENERATION_ATTEMPTS 0 hres
        exact absurd hk3 (hall k (by omega)).1
      | exhausted => rfl
    · obtain ⟨k, _, hk2, hk3, _, hk5, _⟩ :=
        genUniqFrom_ok_spec gen used MAX_GENERATION_ATTEMPTS 0 c hres
      exact absurd ((hk3 ▸ (hall k (by omega)).2)) hk5
  · intro h
    obtain ⟨k, hk1, hk2, hk3, hk4⟩ :=
      genUniqFrom_empty_spec gen used MAX_GENERATION_ATTEMPTS 0 h
    exact ⟨k, by omega, hk3, fun j hj => hk4 j (by omega) hj⟩
  · intro hex
    obtain ⟨k, hk1, hk2, hk3⟩ := hex
    rcases hres : generateUniquePeerId gen used with err | c
    · cases err with
      | emptyGenerated => rfl
      | exhausted =>
        have := genUniqFrom_exhausted_spec gen used MAX_GENERATION_ATTEMPTS 0
          hres k (by omega) (by omega)
        exact absurd hk2 this.1
    · obtain ⟨m, _, hm2, hm3, hm4, hm5, hm6⟩ :=
        genUniqFrom_ok_spec gen used MAX_GENERATION_ATTEMPTS 0 c hres
      rcases Nat.lt_trichotomy m k with hmk | hmk | hmk
      · exact absurd (hm3 ▸ (hk3 m hmk).2) hm5
      · exact absurd (hmk ▸ hk2) hm4
      · exact absurd hk2 ((hm6 k (by omega) hmk).1)
  · intro gen' hagree
    exact genUniqFrom_congr gen gen' used MAX_GENERATION_ATTEMPTS 0 rfl
      (fun i hi => hagree i (by rw [hmax] at hi; exact hi))

/-- Witness for C7 at a concrete generator stream: the first value collides
with the known ids and the second is returned. -/
theorem claim_C7_witness :
    ∃ k, k < 32 ∧ ("b" : String) = (fun n => if n = 0 then "a" else "b") k ∧
      ("b" : String) ∉ ["a"] ∧
      ∀ j, j < k → (fun n => if n = 0 then "a" else "b") j ≠ "" ∧
        (fun n => if n = 0 then "a" else "b") j ∈ ["a"] :=
  (claim_C7_generator_exhaustion (fun n => if n = 0 then "a" else "b")
    ["a"]).1 "b" rfl

/-! ## Helper lemmas about record lookup and the dedup map -/

lemma activeLookup_eq_none_iff (active : List (String × ActiveLeaseInfo))
    (k : String) : activeLookup active k = none ↔ ∀ p ∈ active, p.1 ≠ k := by
  induction active with
  | nil => simp [activeLookup]
  | cons a rest ih =>
    rw [activeLookup]
    by_cases ha : a.1 = k
    · simp [ha]
    · simp only [ha, if_false, ih, List.mem_cons]
      constructor
      · intro h p hp
        rcases hp with rfl | hp
        · exact ha
        · exact h p hp
      · intro h p hp; exact h p (Or.inr hp)

lemma activeLookup_filter_none (active : List (String × ActiveLeaseInfo))
    (k : String) (f : String × ActiveLeaseInfo → Bool)
    (h : activeLookup active k = none) :
    activeLookup (active.filter f) k = none := by
  rw [activeLookup_eq_none_iff] at h ⊢
  intro p hp
  exact h p (List.mem_of_mem_filter hp)

lemma activeLookup_filter_some (active : List (String × ActiveLeaseInfo))
    (k : String) (i : ActiveLeaseInfo) (f : String × ActiveLeaseInfo → Bool)
    (h : activeLookup active k = some i) (hf : f (k, i) = true) :
    activeLookup (active.filter f) k = some i := by
  induction active with
  | nil => simp [activeLookup] at h
  | cons a rest ih =>
    rw [activeLookup] at h
    by_cases ha : a.1 = k
    · simp only [ha, if_true, Option.some.injEq] at h
      have hak : a = (k, i) := by
        obtain ⟨a1, a2⟩ := a
        simp only at ha h
        rw [ha, h]
      have hfa : f a = true := by rw [hak]; exact hf
      rw [List.filter_cons_of_pos hfa, activeLookup, if_pos ha, h]
    · simp only [ha, if_false] at h
      by_cases hfa : f a = true
      · rw [List.filter_cons_of_pos hfa, activeLookup, if_neg ha]
        exact ih h
      · rw [List.filter_cons_of_neg (by simp [hfa])]
        exact ih h

lemma mem_mapSet (m : List (String × String)) (k v : String)
    (q : String × String) (h : q ∈ mapSet m k v) : q ∈ m ∨ q = (k, v) := by
  induction m with
  | nil => simp [mapSet] at h; exact Or.inr h
  | cons a rest ih =>
    rw [mapSet] at h
    by_cases ha : a.1 = k
    · simp only [ha, if_true, List.mem_cons] at h
      rcases h with rfl | h
      · exact Or.inr rfl
      · exact Or.inl (List.mem_cons_of_mem a h)
    · simp only [ha, if_false, List.mem_cons] at h
      rcases h with rfl | h
      · exact Or.inl (List.mem_cons_self q rest)
      · rcases ih h with h' | h'
        · exact Or.inl (List.mem_cons_of_mem a h')
        · exact Or.inr h'

lemma mapSet_keys (m : List (String × String)) (k v : String) :
    (mapSet m k v).map Prod.fst =
      if k ∈ m.map Prod.fst then m.map Prod.fst
      else m.map Prod.fst ++ [k] := by
  induction m with
  | nil => simp [mapSet]
  | cons a rest ih =>
    rw [mapSet]
    by_cases ha : a.1 = k
    · simp [ha]
    · have hne : k ≠ a.1 := fun h => ha h.symm
      by_cases hmem : k ∈ rest.map Prod.fst
      · simp [ha, hmem, ih, hne]
      · simp [ha, hmem, ih, hne]

lemma mapSet_keys_nodup (m : List (String × String)) (k v : String)
    (h : (m.map Prod.fst).Nodup) : ((mapSet m k v).map Prod.fst).Nodup := by
  rw [mapSet_keys]
  by_cases hmem : k ∈ m.map Prod.fst
  · simpa [hmem] using h
  · simp only [hmem, if_false]
    rw [List.nodup_append]
    exact ⟨h, List.nodup_singleton k, by simpa using hmem⟩

lemma normDedup_mem (active : List (String × ActiveLeaseInfo)) :
    ∀ (l : List CachedPeerId) (acc : List (String × String))
      (q : String × String), q ∈ normDedup active l acc →
      q ∈ acc ∨ (q.1 ≠ "" ∧ q.2 ≠ "" ∧ activeLookup active q.1 = none) := by
  intro l
  induction l with
  | nil => intro acc q h; exact Or.inl h
  | cons e rest ih =>
    intro acc q h
    rw [normDedup] at h
    by_cases hbad : e.id = "" ∨ e.version = ""
    · rw [if_pos hbad] at h; exact ih acc q h
    · rw [if_neg hbad] at h
      by_cases hact : (activeLookup active e.id).isSome
      · rw [if_pos hact] at h; exact ih acc q h
      · rw [if_neg hact] at h
        rcases ih (mapSet acc e.id e.version) q h with h' | h'
        · rcases mem_mapSet acc e.id e.version q h' with h'' | h''
          · exact Or.inl h''
          · subst h''
            push_neg at hbad
            refine Or.inr ⟨hbad.1, hbad.2, ?_⟩
            cases hlook : activeLookup active e.id with
            | none => rfl
            | some _ => exact absurd (by simp [hlook]) hact
        · exact Or.inr h'

lemma normDedup_keys_nodup (active : List (String × ActiveLeaseInfo)) :
    ∀ (l : List CachedPeerId) (acc : List (String × String)),
      (acc.map Prod.fst).Nodup →
      ((normDedup active l acc).map Prod.fst).Nodup := by
  intro l
  induction l with
  | nil => intro acc h; exact h
  | cons e rest ih =>
    intro acc h
    rw [normDedup]
    by_cases hbad : e.id = "" ∨ e.version = ""
    · rw [if_pos hbad]; exact ih acc h
    · rw [if_neg hbad]
      by_cases hact : (activeLookup active e.id).isSome
      · rw [if_pos hact]; exact ih acc h
      · rw [if_neg hact]
        exact ih (mapSet acc e.id e.version)
          (mapSet_keys_nodup acc e.id e.version h)

lemma pairsDedup_keys_nodup :
    ∀ (l : List CachedPeerId) (acc : List (String × String)),
      (acc.map Prod.fst).Nodup →
      ((pairsDedup l acc).map Prod.fst).Nodup := by
  intro l
  induction l with
  | nil => intro acc h; exact h
  | cons e rest ih =>
    intro acc h
    rw [pairsDedup]
    by_cases hbad : e.id = "" ∨ e.version = ""
    · rw [if_pos hbad]; exact ih acc h
    · rw [if_neg hbad]
      exact ih (mapSet acc e.id e.version)
        (mapSet_keys_nodup acc e.id e.version h)

lemma acquireMutator_recycled (cmp : String → String → Option Int)
    (gen : Nat → String) (version : String) (now : Int) (st : LeaseState)
    (e : CachedPeerId) (rest : List CachedPeerId)
    (hsel : selectRecycled cmp version st.available = some (e, rest))
    (hne : e.id ≠ "") :
    acquireMutator cmp gen version now st
      = .ok (e.id, ⟨rest, activeInsert st.active e.id ⟨now, version⟩⟩) := by
  unfold acquireMutator
  rw [hsel]
  simp [hne]

lemma acquireMutator_minted (cmp : String → String → Option Int)
    (gen : Nat → String) (version : String) (now : Int) (st : LeaseState)
    (c : String)
    (hsel : selectRecycled cmp version st.available = none)
    (hgen : generateUniquePeerId gen (usedIds st) = .ok c) :
    acquireMutator cmp gen version now st
      = .ok (c, ⟨st.available, activeInsert st.active c ⟨now, version⟩⟩) := by
  unfold acquireMutator
  rw [hsel, hgen]

lemma acquireMutator_minted_error (cmp : String → String → Option Int)
    (gen : Nat → String) (version : String) (now : Int) (st : LeaseState)
    (err : AcquireError)
    (hsel : selectRecycled cmp version st.available = none)
    (hgen : generateUniquePeerId gen (usedIds st) = .error err) :
    acquireMutator cmp gen version now st = .error err := by
  unfold acquireMutator
  rw [hsel, hgen]

/-- Well-formedness of a lease state at rest: pool and active entries carry
non-empty ids and versions, and the pool is disjoint from the active keys. -/
def WFState (st : LeaseState) : Prop :=
  (∀ e ∈ st.available, e.id ≠ "" ∧ e.version ≠ "") ∧
  (∀ p ∈ st.active, p.1 ≠ "" ∧ p.2.version ≠ "") ∧
  (∀ e ∈ st.available, activeLookup st.active e.id = none)

lemma normalizeStateFn_wf (st : LeaseState) : WFState (normalizeStateFn st) := by
  refine ⟨?_, ?_, ?_⟩
  · intro e he
    simp only [normalizeStateFn, List.mem_map] at he
    obtain ⟨q, hq, rfl⟩ := he
    rcases normDedup_mem st.active st.available [] q hq with h | h
    · cases h
    · exact ⟨h.1, h.2.1⟩
  · intro p hp
    simp only [normalizeStateFn, List.mem_filter] at hp
    obtain ⟨_, hcond⟩ := hp
    simp only [Bool.and_eq_true, Bool.not_eq_true', beq_eq_false_iff_ne] at hcond
    exact hcond
  · intro e he
    simp only [normalizeStateFn, List.mem_map] at he
    obtain ⟨q, hq, rfl⟩ := he
    rcases normDedup_mem st.active st.available [] q hq with h | h
    · cases h
    · exact activeLookup_filter_none st.active q.1 _ h.2.2

/-! ## Claim theorems C2 and C3 -/

/-- C2: uniqueness of live leases — every state passed through normalization
is well-formed with the available pool disjoint from the active keys, and on
any well-formed state acquirePeerId's mutator only returns an id that is not
a key of the active map at selection time: a recycled id comes from the pool
(disjoint from active), and a minted id is vetted against the union of pool
ids and active keys. -/
theorem claim_C2_uniqueness :
    (∀ st, WFState (normalizeStateFn st)) ∧
    (∀ (cmp : String → String → Option Int) (gen : Nat → String)
       (version : String) (now : Int) (st : LeaseState) (pid : String)
       (st' : LeaseState), WFState st →
       acquireMutator cmp gen version now st = .ok (pid, st') →
       activeLookup st.active pid = none) := by
  refine ⟨normalizeStateFn_wf, ?_⟩
  intro cmp gen version now st pid st' hwf hacq
  cases hsel : selectRecycled cmp version st.available with
  | some pr =>
    obtain ⟨e, rest⟩ := pr
    have hmem : e ∈ st.available :=
      selectRecycled_mem cmp version st.available e rest hsel
    have hne : e.id ≠ "" := (hwf.1 e hmem).1
    rw [acquireMutator_recycled cmp gen version now st e rest hsel hne]
      at hacq
    simp only [Except.ok.injEq, Prod.mk.injEq] at hacq
    rw [← hacq.1]
    exact hwf.2.2 e hmem
  | none =>
    cases hgen : generateUniquePeerId gen (usedIds st) with
    | error err =>
      rw [acquireMutator_minted_error cmp gen version now st err hsel hgen]
        at hacq
      exact absurd hacq (by simp)
    | ok c =>
      rw [acquireMutator_minted cmp gen version now st c hsel hgen] at hacq
      simp only [Except.ok.injEq, Prod.mk.injEq] at hacq
      have hnotused : c ∉ usedIds st :=
        generateUniquePeerId_ok_not_mem gen (usedIds st) c hgen
      rw [← hacq.1, activeLookup_eq_none_iff]
      intro p hp hcontra
      apply hnotused
      simp only [usedIds, List.mem_append, List.mem_map]
      exact Or.inr ⟨p, hp, hcontra⟩

/-- Witness for C2 at a concrete well-formed state: recycling entry p leaves
the active key q untouched and p was not active at selection time. -/
theorem claim_C2_witness :
    activeLookup [("q", ⟨0, "1"⟩)] "p" = none :=
  claim_C2_uniqueness.2 (fun a b => if a = b then some 0 else none)
    (fun _ => "z") "1" 5 ⟨[⟨"p", "1"⟩], [("q", ⟨0, "1"⟩)]⟩ "p"
    ⟨[], activeInsert [("q", ⟨0, "1"⟩)] "p" ⟨5, "1"⟩⟩
    (by refine ⟨?_, ?_, ?_⟩ <;> decide) rfl

/-- C3: after every mutation through withState and before persistence, the
normalized in-memory state has an available pool disjoint from the active
keys with at most one entry per id; the persisted value is exactly that
normalized state; and when an id occurs on both sides before normalization,
the pool entry is dropped while the (well-formed) active entry is kept. -/
theorem claim_C3_disjointness {α : Type}
    (mutator : LeaseState → LeaseState × α) (now : Int) (s : LeaseStore) :
    ((withStateRun mutator now s).2.state =
       writeStateFn (prePersistState mutator now s)) ∧
    (∀ e ∈ (prePersistState mutator now s).available,
       activeLookup (prePersistState mutator now s).active e.id = none) ∧
    ((prePersistState mutator now s).available.map (fun e => e.id)).Nodup ∧
    (∀ e ∈ (mutator (cleanupStateFn
          (drainPendingReleases s.pending (readStateFn s.state)).2
          now)).1.available,
      ∀ info, activeLookup (mutator (cleanupStateFn
          (drainPendingReleases s.pending (readStateFn s.state)).2
          now)).1.active e.id = some info →
        (∀ e' ∈ (prePersistState mutator now s).available, e'.id ≠ e.id) ∧
        (e.id ≠ "" → info.version ≠ "" →
          activeLookup (prePersistState mutator now s).active e.id
            = some info)) := by
  set stPre := (mutator (cleanupStateFn
      (drainPendingReleases s.pending (readStateFn s.state)).2 now)).1
  refine ⟨rfl, ?_, ?_, ?_⟩
  · exact (normalizeStateFn_wf stPre).2.2
  · have : (prePersistState mutator now s).available
        = (normDedup stPre.active stPre.available []).map
            (fun p => (⟨p.1, p.2⟩ : CachedPeerId)) := rfl
    rw [this]
    have hmapmap : ((normDedup stPre.active stPre.available []).map
        (fun p => (⟨p.1, p.2⟩ : CachedPeerId))).map (fun e => e.id)
        = (normDedup stPre.active stPre.available []).map Prod.fst := by
      rw [List.map_map]; rfl
    rw [hmapmap]
    exact normDedup_keys_nodup stPre.active stPre.available [] List.nodup_nil
  · intro e he info hinfo
    constructor
    · intro e' he' hcontra
      simp only [prePersistState, normalizeStateFn, List.mem_map] at he'
      obtain ⟨q, hq, rfl⟩ := he'
      rcases normDedup_mem stPre.active stPre.available [] q hq with h | h
      · cases h
      · have hq1 : q.1 = e.id := hcontra
        rw [hq1] at h
        rw [h.2.2] at hinfo
        cases hinfo
    · intro hid hver
      have : (prePersistState mutator now s).active
          = stPre.active.filter
              (fun p => !(p.1 == "") && !(p.2.version == "")) := rfl
      rw [this]
      exact activeLookup_filter_some stPre.active e.id info _ hinfo
        (by simp [hid, hver])

/-- Witness for C3 at a concrete store whose mutator leaves the id x on both
sides: normalization keeps the active entry and drops the pool entry. -/
theorem claim_C3_witness :
    ((withStateRun (fun _ => (⟨[⟨"x", "1"⟩], [("x", ⟨3, "2"⟩)]⟩, ())) 0
        ⟨none, none⟩).2.state =
      writeStateFn (prePersistState
        (fun _ => (⟨[⟨"x", "1"⟩], [("x", ⟨3, "2"⟩)]⟩, ())) 0
        ⟨none, none⟩)) ∧
    (∀ e' ∈ (prePersistState
        (fun _ => (⟨[⟨"x", "1"⟩], [("x", ⟨3, "2"⟩)]⟩, ())) 0
        ⟨none, none⟩).available, e'.id ≠ "x") ∧
    activeLookup (prePersistState
        (fun _ => (⟨[⟨"x", "1"⟩], [("x", ⟨3, "2"⟩)]⟩, ())) 0
        ⟨none, none⟩).active "x" = some ⟨3, "2"⟩ := by
  have h := claim_C3_disjointness
    (fun _ => (⟨[⟨"x", "1"⟩], [("x", ⟨3, "2"⟩)]⟩, ())) 0 ⟨none, none⟩
  have hmem :
      (⟨"x", "1"⟩ : CachedPeerId) ∈ ((fun _ => (⟨[⟨"x", "1"⟩],
        [("x", ⟨3, "2"⟩)]⟩, ())) (cleanupStateFn (drainPendingReleases
        (⟨none, none⟩ : LeaseStore).pending (readStateFn
        (⟨none, none⟩ : LeaseStore).state)).2 0) :
        LeaseState × Unit).1.available := by decide
  have hlook : activeLookup ((fun _ => (⟨[⟨"x", "1"⟩],
        [("x", ⟨3, "2"⟩)]⟩, ())) (cleanupStateFn (drainPendingReleases
        (⟨none, none⟩ : LeaseStore).pending (readStateFn
        (⟨none, none⟩ : LeaseStore).state)).2 0) :
        LeaseState × Unit).1.active "x" = some ⟨3, "2"⟩ := by decide
  obtain ⟨h1, _, _, h4⟩ := h
  obtain ⟨h5, h6⟩ := h4 ⟨"x", "1"⟩ hmem ⟨3, "2"⟩ hlook
  exact ⟨h1, h5, h6 (by decide) (by decide)⟩

/-! ## Claim theorem C5 -/

/-- C5: staleness discard — the cleanup pass run at the start of every state
mutation (before the mutator, as the last conjunct pins inside the withState
pipeline) deletes exactly the active entries whose age has reached the
24-hour threshold (or are malformed), and never moves anything into the
available pool, which it leaves untouched. -/
theorem claim_C5_staleness_discard :
    (∀ st now, (cleanupStateFn st now).available = st.available) ∧
    (∀ st now k info, (k, info) ∈ (cleanupStateFn st now).active ↔
      ((k, info) ∈ st.active ∧ info.version ≠ "" ∧
        now - info.leasedAt < LEASE_STALE_AFTER_MS)) ∧
    (∀ (α : Type) (mutator : LeaseState → LeaseState × α) now s,
      prePersistState mutator now s = normalizeStateFn (mutator
        (cleanupStateFn
          (drainPendingReleases s.pending (readStateFn s.state)).2 now)).1) := by
  refine ⟨fun st now => rfl, ?_, fun α mutator now s => rfl⟩
  intro st now k info
  simp only [cleanupStateFn, List.mem_filter, Bool.and_eq_true,
    Bool.not_eq_true', beq_eq_false_iff_ne, decide_eq_true_eq, and_assoc]

/-! ## Helper lemmas about the release upsert -/

lemma mem_upsertAvail_self (value version : String) :
    ∀ l : List CachedPeerId,
      (⟨value, version⟩ : CachedPeerId) ∈ upsertAvail value version l := by
  intro l
  induction l with
  | nil => simp [upsertAvail]
  | cons a rest ih =>
    rw [upsertAvail]
    by_cases ha : a.id = value
    · simp [ha]
    · simp only [ha, if_false, List.mem_cons]
      exact Or.inr ih

lemma mem_upsertAvail_of_ne (value version : String) :
    ∀ (l : List CachedPeerId) (e : CachedPeerId), e ∈ l → e.id ≠ value →
      e ∈ upsertAvail value version l := by
  intro l
  induction l with
  | nil => intro e he; cases he
  | cons a rest ih =>
    intro e he hne
    rw [upsertAvail]
    rcases List.mem_cons.mp he with rfl | he'
    · rw [if_neg (by exact hne)]
      exact List.mem_cons_self e _
    · by_cases ha : a.id = value
      · rw [if_pos ha]
        exact List.mem_cons_of_mem _ he'
      · rw [if_neg ha]
        exact List.mem_cons_of_mem a (ih e he' hne)

lemma upsertAvail_unique (value version : String) :
    ∀ l : List CachedPeerId, (l.map (fun e => e.id)).Nodup →
      ∀ e ∈ upsertAvail value version l, e.id = value →
        e = ⟨value, version⟩ := by
  intro l
  induction l with
  | nil =>
    intro _ e he hid
    rw [upsertAvail] at he
    simpa using he
  | cons a rest ih =>
    intro hnd e he hid
    rw [upsertAvail] at he
    have hnd' : (rest.map (fun e => e.id)).Nodup :=
      (List.nodup_cons.mp hnd).2
    by_cases ha : a.id = value
    · rw [if_pos ha] at he
      rcases List.mem_cons.mp he with rfl | he'
      · rfl
      · have : a.id ∉ rest.map (fun e => e.id) := (List.nodup_cons.mp hnd).1
        exact absurd (by
          simp only [List.mem_map]
          exact ⟨e, he', by rw [hid, ha]⟩) this
    · rw [if_neg ha] at he
      rcases List.mem_cons.mp he with rfl | he'
      · exact absurd hid ha
      · exact ih hnd' e he' hid

lemma activeLookup_erase_none (active : List (String × ActiveLeaseInfo))
    (k : String) : activeLookup (activeErase active k) k = none := by
  rw [activeLookup_eq_none_iff]
  intro p hp
  have := List.of_mem_filter hp
  simpa using this

/-! ## Claim theorem C10 -/

/-- C10: flushing a release upserts the released pair into the available pool
unconditionally — whether or not the id is a key of active, the pair lands in
the pool (replacing the sole prior entry for that id when the pool ids are
unique), the id is absent from active afterwards, pool entries for other ids
are preserved, and when the id was not active at all the active map is left
exactly as it was. -/
theorem claim_C10_flush_upserts (value version : String) (st : LeaseState) :
    (⟨value, version⟩ : CachedPeerId)
        ∈ (flushReleaseMutator value version st).available ∧
    activeLookup (flushReleaseMutator value version st).active value = none ∧
    (∀ e ∈ st.available, e.id ≠ value →
      e ∈ (flushReleaseMutator value version st).available) ∧
    (activeLookup st.active value = none →
      (flushReleaseMutator value version st).active = st.active) ∧
    ((st.available.map (fun e => e.id)).Nodup →
      ∀ e ∈ (flushReleaseMutator value version st).available, e.id = value →
        e = ⟨value, version⟩) := by
  refine ⟨mem_upsertAvail_self value version st.available, ?_, ?_, ?_, ?_⟩
  · show activeLookup
      (if (activeLookup st.active value).isSome then
        activeErase st.active value else st.active) value = none
    by_cases h : (activeLookup st.active value).isSome
    · rw [if_pos h]
      exact activeLookup_erase_none st.active value
    · rw [if_neg h]
      cases hl : activeLookup st.active value with
      | none => rfl
      | some _ => exact absurd (by simp [hl]) h
  · intro e he hne
    exact mem_upsertAvail_of_ne value version st.available e he hne
  · intro hnone
    show (if (activeLookup st.active value).isSome then
      activeErase st.active value else st.active) = st.active
    rw [if_neg (by simp [hnone])]
  · intro hnd e he hid
    exact upsertAvail_unique value version st.available hnd e he hid

/-- Witness for C10 at a concrete state whose active map does not know the
released id: the pair still lands in the pool, replacing the stale pool entry
for the same id, and active is untouched. -/
theorem claim_C10_witness :
    (⟨"r", "9"⟩ : CachedPeerId)
        ∈ (flushReleaseMutator "r" "9"
            ⟨[⟨"r", "1"⟩], [("s", ⟨0, "1"⟩)]⟩).available ∧
    ((flushReleaseMutator "r" "9"
        ⟨[⟨"r", "1"⟩], [("s", ⟨0, "1"⟩)]⟩).active = [("s", ⟨0, "1"⟩)]) ∧
    ∀ e ∈ (flushReleaseMutator "r" "9"
        ⟨[⟨"r", "1"⟩], [("s", ⟨0, "1"⟩)]⟩).available, e.id = "r" →
      e = ⟨"r", "9"⟩ := by
  have h := claim_C10_flush_upserts "r" "9" ⟨[⟨"r", "1"⟩], [("s", ⟨0, "1"⟩)]⟩
  exact ⟨h.1, h.2.2.2.1 (by decide), h.2.2.2.2 (by decide)⟩

/-! ## Helper lemmas for the drain fold -/

lemma filter_id_eq_self (k : String) (l : List CachedPeerId)
    (h : k ∉ l.map (fun e => e.id)) :
    l.filter (fun e => !(e.id == k)) = l := by
  rw [List.filter_eq_self]
  intro a ha
  simp only [Bool.not_eq_true', beq_eq_false_iff_ne]
  intro heq
  exact h (by
    simp only [List.mem_map]
    exact ⟨a, ha, heq⟩)

lemma eraseP_id_eq_filter (k : String) :
    ∀ l : List CachedPeerId, (l.map (fun e => e.id)).Nodup →
      l.eraseP (fun e => e.id == k) = l.filter (fun e => !(e.id == k)) := by
  intro l
  induction l with
  | nil => intro _; rfl
  | cons a rest ih =>
    intro hnd
    rw [List.map_cons, List.nodup_cons] at hnd
    by_cases ha : a.id = k
    · rw [List.eraseP_cons_of_pos (by simp [ha]),
        List.filter_cons_of_neg (by simp [ha])]
      have hnot : k ∉ rest.map (fun e => e.id) := by
        have := hnd.1
        rwa [ha] at this
      exact (filter_id_eq_self k rest hnot).symm
    · rw [List.eraseP_cons_of_neg (by simp [ha]),
        List.filter_cons_of_pos (by simp [ha])]
      rw [ih hnd.2]

lemma filter_id_nodup (l : List CachedPeerId) (q : CachedPeerId → Bool)
    (h : (l.map (fun e => e.id)).Nodup) :
    ((l.filter q).map (fun e => e.id)).Nodup :=
  List.Nodup.sublist ((List.filter_sublist l).map (fun e => e.id)) h

lemma drainFold_spec :
    ∀ (D : List (String × String)) (st : LeaseState),
      (D.map Prod.fst).Nodup → (st.available.map (fun e => e.id)).Nodup →
      D.foldl drainStep st =
        ⟨st.available.filter
            (fun e => !((D.map Prod.fst).contains e.id))
          ++ D.map (fun p => ⟨p.1, p.2⟩),
         st.active.filter (fun p => !((D.map Prod.fst).contains p.1))⟩ := by
  intro D
  induction D with
  | nil =>
    intro st _ _
    simp [List.foldl]
  | cons d D' ih =>
    obtain ⟨k, v⟩ := d
    intro st hD hav
    rw [List.map_cons, List.nodup_cons] at hD
    have hknot : k ∉ D'.map Prod.fst := hD.1
    have hD' : (D'.map Prod.fst).Nodup := hD.2
    have hstep : drainStep st (k, v) =
        ⟨st.available.filter (fun e => !(e.id == k)) ++ [⟨k, v⟩],
         st.active.filter (fun p => !(p.1 == k))⟩ := by
      rw [drainStep]
      rw [eraseP_id_eq_filter k st.available hav]
      rfl
    have hav1 : ((st.available.filter (fun e => !(e.id == k)) ++
        ([⟨k, v⟩] : List CachedPeerId)).map (fun e => e.id)).Nodup := by
      rw [List.map_append, List.nodup_append]
      refine ⟨filter_id_nodup st.available _ hav, by simp, ?_⟩
      intro x hx hy
      simp only [List.map_cons, List.map_nil, List.mem_singleton] at hy
      subst hy
      simp only [List.mem_map, List.mem_filter] at hx
      obtain ⟨e, ⟨_, hcond⟩, hid⟩ := hx
      rw [hid] at hcond
      simp at hcond
    rw [List.foldl_cons, hstep, ih _ hD' hav1]
    have hcontk : ((D'.map Prod.fst).contains k) = false := by
      cases hc : (D'.map Prod.fst).contains k with
      | false => rfl
      | true =>
        exact absurd (List.elem_iff.mp hc) hknot
    refine congrArg₂ LeaseState.mk ?_ ?_
    · rw [List.filter_append, List.filter_filter]
      have hpred : (fun e : CachedPeerId =>
          !((D'.map Prod.fst).contains e.id) && !(e.id == k)) =
          (fun e : CachedPeerId =>
            !((((k, v) :: D').map Prod.fst).contains e.id)) := by
        funext e
        simp only [List.map_cons, List.contains_cons, Bool.not_or]
        rw [Bool.and_comm]
      have hposs : (!((D'.map Prod.fst).contains k)) = true := by
        rw [hcontk]; rfl
      rw [hpred]
      simp only [List.filter_cons, List.filter_nil, hposs, if_true,
        List.append_assoc, List.singleton_append, List.map_cons]
    · rw [List.filter_filter]
      have hpred : (fun p : String × ActiveLeaseInfo =>
          !((D'.map Prod.fst).contains p.1) && !(p.1 == k)) =
          (fun p : String × ActiveLeaseInfo =>
            !((((k, v) :: D').map Prod.fst).contains p.1)) := by
        funext p
        simp only [List.map_cons, List.contains_cons, Bool.not_or]
        rw [Bool.and_comm]
      rw [hpred]

/-! ## Helper lemmas for the finalize removal loop -/

lemma pair_pred_eq_beq (e : CachedPeerId) :
    (fun c : CachedPeerId => c.id == e.id && c.version == e.version) =
      (fun c : CachedPeerId => c == e) := by
  funext c
  obtain ⟨ci, cv⟩ := c
  obtain ⟨ei, ev⟩ := e
  rw [Bool.eq_iff_iff]
  simp [CachedPeerId.mk.injEq]

lemma removeFoldedAux_count (x : CachedPeerId) :
    ∀ (folded remaining : List CachedPeerId) (changed : Bool),
      folded.Nodup →
      ((removeFoldedAux folded remaining changed).1).count x =
        remaining.count x - (if x ∈ folded then 1 else 0) := by
  intro folded
  induction folded with
  | nil => intro remaining changed _; simp [removeFoldedAux]
  | cons e rest ih =>
    intro remaining changed hnd
    have hrest : rest.Nodup := (List.nodup_cons.mp hnd).2
    have henotrest : e ∉ rest := (List.nodup_cons.mp hnd).1
    rw [removeFoldedAux, pair_pred_eq_beq]
    by_cases hmem : (remaining.find? (fun c => c == e)).isSome
    · rw [if_pos hmem]
      have herase : remaining.eraseP (fun c => c == e) = remaining.erase e := by
        rw [List.erase_eq_eraseP]
        congr 1
        funext c
        by_cases hce : c = e
        · subst hce; rfl
        · rw [beq_eq_false_iff_ne.mpr hce,
            beq_eq_false_iff_ne.mpr (Ne.symm hce)]
      rw [herase, ih (remaining.erase e) true hrest, List.count_erase]
      by_cases hx : x = e
      · subst hx
        simp [henotrest]
      · have hbe : (e == x) = false := beq_eq_false_iff_ne.mpr (Ne.symm hx)
        simp [hbe, List.mem_cons, hx]
    · rw [if_neg hmem]
      rw [ih remaining changed hrest]
      have hnotin : e ∉ remaining := by
        intro hin
        apply hmem
        rw [List.find?_isSome]
        exact ⟨e, hin, by simp⟩
      by_cases hx : x = e
      · subst hx
        have : remaining.count x = 0 := List.count_eq_zero.mpr hnotin
        simp [this]
      · simp [List.mem_cons, hx]

lemma removeFoldedAux_changed_stays :
    ∀ (folded remaining : List CachedPeerId),
      (removeFoldedAux folded remaining true).2 = true := by
  intro folded
  induction folded with
  | nil => intro remaining; rfl
  | cons e rest ih =>
    intro remaining
    rw [removeFoldedAux]
    by_cases hmem : (remaining.find? (fun c =>
        c.id == e.id && c.version == e.version)).isSome
    · rw [if_pos hmem]; exact ih _
    · rw [if_neg hmem]; exact ih remaining

lemma removeFoldedAux_unchanged :
    ∀ (folded remaining : List CachedPeerId),
      (removeFoldedAux folded remaining false).2 = false →
      (removeFoldedAux folded remaining false).1 = remaining := by
  intro folded
  induction folded with
  | nil => intro remaining _; rfl
  | cons e rest ih =>
    intro remaining h
    rw [removeFoldedAux] at h ⊢
    by_cases hmem : (remaining.find? (fun c =>
        c.id == e.id && c.version == e.version)).isSome
    · rw [if_pos hmem] at h
      rw [removeFoldedAux_changed_stays rest _] at h
      cases h
    · rw [if_neg hmem] at h ⊢
      exact ih remaining h

lemma removeFoldedAux_sublist :
    ∀ (folded remaining : List CachedPeerId) (changed : Bool),
      List.Sublist (removeFoldedAux folded remaining changed).1 remaining := by
  intro folded
  induction folded with
  | nil => intro remaining changed; exact List.Sublist.refl remaining
  | cons e rest ih =>
    intro remaining changed
    rw [removeFoldedAux]
    by_cases hmem : (remaining.find? (fun c =>
        c.id == e.id && c.version == e.version)).isSome
    · rw [if_pos hmem]
      exact (ih _ true).trans (List.eraseP_sublist remaining)
    · rw [if_neg hmem]
      exact ih remaining changed

lemma parsePendingEntries_wf (cell : Option PRaw) :
    ∀ e ∈ parsePendingEntries cell, e.id ≠ "" ∧ e.version ≠ "" := by
  intro e he
  match cell with
  | none => cases he
  | some (.garbage _) => cases he
  | some (.arrOf items _) =>
    simp only [parsePendingEntries, List.mem_filterMap] at he
    obtain ⟨it, _, hit⟩ := he
    cases it with
    | okPair i v =>
      by_cases hbad : i = "" ∨ v = ""
      · simp [hbad] at hit
      · have he2 : (⟨i, v⟩ : CachedPeerId) = e := by simpa [hbad] using hit
        subst he2
        push_neg at hbad
        exact hbad
    | badItem g => simp at hit

lemma parse_arrOf_map :
    ∀ (l : List CachedPeerId) (t : Nat),
      (∀ e ∈ l, e.id ≠ "" ∧ e.version ≠ "") →
      parsePendingEntries (some (.arrOf
        (l.map (fun e => PendingItem.okPair e.id e.version)) t)) = l := by
  intro l
  induction l with
  | nil => intro t _; rfl
  | cons e rest ih =>
    intro t hwf
    have he := hwf e (List.mem_cons_self e rest)
    have hne : ¬(e.id = "" ∨ e.version = "") := by push_neg; exact he
    simp only [parsePendingEntries, List.map_cons, List.filterMap_cons, hne,
      if_false]
    have hrest := ih t (fun x hx => hwf x (List.mem_cons_of_mem e hx))
    simp only [parsePendingEntries] at hrest
    rw [hrest]

lemma parse_write_roundtrip (l : List CachedPeerId)
    (hwf : ∀ e ∈ l, e.id ≠ "" ∧ e.version ≠ "") :
    parsePendingEntries (writePendingReleases l) = l := by
  rw [writePendingReleases]
  by_cases hl : l = []
  · rw [if_pos hl, hl]; rfl
  · rw [if_neg hl]
    exact parse_arrOf_map l 0 hwf

/-! ## Claim theorem C4 -/

/-- C4: the pending-release protocol — draining folds each staged
`{id, version}` into the state by deleting the id from active and upserting
the pair into available (overwriting any prior pool entry for that id, the
staged ids being pairwise distinct); and finalize clears the whole pending
key when the current raw value equals the drain snapshot, leaves an absent
key absent, and otherwise removes exactly one occurrence of each folded
entry from the currently stored entries, preserving everything staged after
the snapshot. -/
theorem claim_C4_pending_protocol :
    (∀ (cell : Option PRaw) (st : LeaseState) (pr : PendingDrainResult)
       (st' : LeaseState), drainPendingReleases cell st = (pr, st') →
       (st.available.map (fun e => e.id)).Nodup →
       ((pr.entries.map (fun e => e.id)).Nodup ∧
        st'.active = st.active.filter
          (fun p => !((pr.entries.map (fun e => e.id)).contains p.1)) ∧
        st'.available = st.available.filter
          (fun e => !((pr.entries.map (fun x => x.id)).contains e.id))
          ++ pr.entries)) ∧
    (∀ (cell : Option PRaw) (pr : PendingDrainResult), pr.entries ≠ [] →
       ((∀ raw, cell = some raw → pr.snapshot = some raw →
          finalizePendingReleases cell pr = none) ∧
        (cell = none → finalizePendingReleases cell pr = none) ∧
        (∀ raw, cell = some raw → pr.snapshot ≠ some raw → pr.entries.Nodup →
          ∀ x, (parsePendingEntries (finalizePendingReleases cell pr)).count x
            = (parsePendingEntries cell).count x -
              (if x ∈ pr.entries then 1 else 0)))) := by
  constructor
  · intro cell st pr st' hdrain hav
    simp only [drainPendingReleases] at hdrain
    by_cases hp : parsePendingEntries cell = []
    · rw [if_pos hp] at hdrain
      injection hdrain with h1 h2
      subst h2
      rw [← h1]
      refine ⟨by simp, ?_, ?_⟩
      · exact (List.filter_eq_self.mpr (fun a _ => rfl)).symm
      · rw [List.append_nil]
        exact (List.filter_eq_self.mpr (fun a _ => rfl)).symm
    · rw [if_neg hp] at hdrain
      injection hdrain with h1 h2
      subst h2
      have hEnt : pr.entries = (pairsDedup (parsePendingEntries cell) []).map
          (fun p => (⟨p.1, p.2⟩ : CachedPeerId)) := by rw [← h1]
      have hkeys : ((pairsDedup (parsePendingEntries cell) []).map
          Prod.fst).Nodup :=
        pairsDedup_keys_nodup (parsePendingEntries cell) [] (by simp)
      have hmapid : ((pairsDedup (parsePendingEntries cell) []).map
          (fun p => (⟨p.1, p.2⟩ : CachedPeerId))).map (fun e => e.id)
          = (pairsDedup (parsePendingEntries cell) []).map Prod.fst := by
        rw [List.map_map]
        rfl
      have hfold := drainFold_spec (pairsDedup (parsePendingEntries cell) [])
        st hkeys hav
      refine ⟨?_, ?_, ?_⟩
      · rw [hEnt, hmapid]
        exact hkeys
      · rw [hfold, hEnt, hmapid]
      · rw [hfold, hEnt, hmapid]
  · intro cell pr hne
    refine ⟨?_, ?_, ?_⟩
    · intro raw hcell hsnap
      subst hcell
      simp only [finalizePendingReleases]
      rw [if_neg hne]
      simp [hsnap]
    · intro hnone
      subst hnone
      simp only [finalizePendingReleases]
      rw [if_neg hne]
    · intro raw hcell hsnap hnd x
      subst hcell
      simp only [finalizePendingReleases]
      rw [if_neg hne]
      simp only [hsnap, if_false]
      by_cases hch : (removeFoldedAux pr.entries
          (parsePendingEntries (some raw)) false).2 = true
      · rw [if_pos hch]
        have hwf : ∀ e ∈ (removeFoldedAux pr.entries
            (parsePendingEntries (some raw)) false).1,
            e.id ≠ "" ∧ e.version ≠ "" := by
          intro e he
          exact parsePendingEntries_wf (some raw) e
            ((removeFoldedAux_sublist pr.entries _ false).mem he)
        rw [parse_write_roundtrip _ hwf]
        exact removeFoldedAux_count x pr.entries _ false hnd
      · rw [if_neg hch]
        have hch' : (removeFoldedAux pr.entries
            (parsePendingEntries (some raw)) false).2 = false := by
          cases hc : (removeFoldedAux pr.entries
              (parsePendingEntries (some raw)) false).2 with
          | false => rfl
          | true => exact absurd hc hch
        have hunch := removeFoldedAux_unchanged pr.entries
          (parsePendingEntries (some raw)) hch'
        have hcount := removeFoldedAux_count x pr.entries
          (parsePendingEntries (some raw)) false hnd
        rw [hunch] at hcount
        exact hcount

/-- Witness for C4 at concrete data: draining one staged pair removes the id
from active and overwrites the stale pool entry; finalize against a pending
buffer that gained an entry after the snapshot removes only the folded pair
and keeps the later one. -/
theorem claim_C4_witness :
    (drainPendingReleases (some (.arrOf [.okPair "a" "2"] 0))
        ⟨[⟨"a", "1"⟩, ⟨"b", "1"⟩],
         [("a", ⟨0, "1"⟩), ("c", ⟨0, "1"⟩)]⟩).2.active
      = [("c", ⟨0, "1"⟩)] ∧
    (drainPendingReleases (some (.arrOf [.okPair "a" "2"] 0))
        ⟨[⟨"a", "1"⟩, ⟨"b", "1"⟩],
         [("a", ⟨0, "1"⟩), ("c", ⟨0, "1"⟩)]⟩).2.available
      = [⟨"b", "1"⟩, ⟨"a", "2"⟩] ∧
    (parsePendingEntries (finalizePendingReleases
        (some (.arrOf [.okPair "a" "2", .okPair "z" "3"] 0))
        ⟨some (.arrOf [.okPair "a" "2"] 0), [⟨"a", "2"⟩]⟩)).count ⟨"z", "3"⟩
      = 1 := by
  refine ⟨?_, ?_, ?_⟩
  · exact (claim_C4_pending_protocol.1 (some (.arrOf [.okPair "a" "2"] 0))
      ⟨[⟨"a", "1"⟩, ⟨"b", "1"⟩], [("a", ⟨0, "1"⟩), ("c", ⟨0, "1"⟩)]⟩
      (drainPendingReleases (some (.arrOf [.okPair "a" "2"] 0))
        ⟨[⟨"a", "1"⟩, ⟨"b", "1"⟩], [("a", ⟨0, "1"⟩), ("c", ⟨0, "1"⟩)]⟩).1
      (drainPendingReleases (some (.arrOf [.okPair "a" "2"] 0))
        ⟨[⟨"a", "1"⟩, ⟨"b", "1"⟩], [("a", ⟨0, "1"⟩), ("c", ⟨0, "1"⟩)]⟩).2
      rfl (by decide)).2.1.trans (by decide)
  · exact (claim_C4_pending_protocol.1 (some (.arrOf [.okPair "a" "2"] 0))
      ⟨[⟨"a", "1"⟩, ⟨"b", "1"⟩], [("a", ⟨0, "1"⟩), ("c", ⟨0, "1"⟩)]⟩
      (drainPendingReleases (some (.arrOf [.okPair "a" "2"] 0))
        ⟨[⟨"a", "1"⟩, ⟨"b", "1"⟩], [("a", ⟨0, "1"⟩), ("c", ⟨0, "1"⟩)]⟩).1
      (drainPendingReleases (some (.arrOf [.okPair "a" "2"] 0))
        ⟨[⟨"a", "1"⟩, ⟨"b", "1"⟩], [("a", ⟨0, "1"⟩), ("c", ⟨0, "1"⟩)]⟩).2
      rfl (by decide)).2.2.trans (by decide)
  · exact ((claim_C4_pending_protocol.2
      (some (.arrOf [.okPair "a" "2", .okPair "z" "3"] 0))
      ⟨some (.arrOf [.okPair "a" "2"] 0), [⟨"a", "2"⟩]⟩
      (by decide)).2.2 _ rfl (by decide) (by decide) ⟨"z", "3"⟩).trans
      (by decide)

/-! ## The fallback fenced mutex (src/lock.ts, LocalStorageMutex) -/

/-- A parsed lock record (interface LockRecord of lock.ts). -/
structure LockRecordM where
  token : String
  expiresAt : Int
  fence : Int
deriving DecidableEq, Repr

/-- Raw value of the lock key: unparsable JSON (`garbage`), or a parse
result whose fields are `none` when absent or wrongly typed; `tag`
distinguishes textually different spellings, canonical writes use tag 0. -/
inductive LRaw where
  | garbage (g : Nat)
  | record (token : Option String) (expiresAt : Option Int)
      (fence : Option Int) (tag : Nat)
deriving DecidableEq, Repr

/-- Raw value of the fence counter key: a decimal integer as written by
`String(next)`, or text on which `Number.parseInt` yields NaN. -/
inductive FRaw where
  | fnum (n : Int)
  | fgarbage (g : Nat)
deriving DecidableEq, Repr

/-- The two storage cells of the fallback mutex: the lock record key and the
separately persisted fence counter key. -/
structure LockStore where
  lock : Option LRaw
  fence : Option FRaw
deriving DecidableEq, Repr

/-- The `raw ? parseInt(raw, 10) : 0` / `isFinite` baseline computation of
bumpFence (lock.ts:267-269): absent or non-numeric text counts as 0. -/
def parseFenceBaseline : Option FRaw → Int
  | none => 0
  | some (.fnum n) => n
  | some (.fgarbage _) => 0

/-- readLock (lock.ts:237-259): absent yields no record; unparsable or
wrongly-shaped values are removed from storage and yield no record. -/
def readLockFn (s : LockStore) : Option LockRecordM × LockStore :=
  match s.lock with
  | none => (none, s)
  | some (.garbage _) => (none, ⟨none, s.fence⟩)
  | some (.record t? e? f? _) =>
    match t?, e?, f? with
    | some t, some e, some f => (some ⟨t, e, f⟩, s)
    | _, _, _ => (none, ⟨none, s.fence⟩)

/-- bumpFence (lock.ts:266-273): next fence is
`max(storedCounter, previousFence) + 1`, persisted under the fence key. -/
def bumpFenceFn (previousFence : Int) (s : LockStore) : Int × LockStore :=
  let baseline := parseFenceBaseline s.fence
  let next := max baseline previousFence + 1
  (next, ⟨s.lock, some (.fnum next)⟩)

/-- The blocking test of tryAcquire (lock.ts:172): a record held by another
token and not yet expired blocks the attempt. -/
def lockBlocks (r : Option LockRecordM) (token : String) (now : Int) : Bool :=
  match r with
  | some rec0 => (!(rec0.token == token)) && decide (now < rec0.expiresAt)
  | none => false

/-- The `record?.fence ?? 0` of tryAcquire (lock.ts:176). -/
def prevFenceOf : Option LockRecordM → Int
  | some rec0 => rec0.fence
  | none => 0

/-- tryAcquire (lock.ts:168-187): read the record, fail while a live foreign
record exists, else bump the fence, write a fresh record with it, and
re-read to confirm the write stuck. -/
def tryAcquireFn (token : String) (now : Int) (s : LockStore) :
    Bool × LockStore :=
  let rs1 := readLockFn s
  if lockBlocks rs1.1 token now then (false, rs1.2)
  else
    let fs2 := bumpFenceFn (prevFenceOf rs1.1) rs1.2
    let s3 : LockStore :=
      ⟨some (.record (some token) (some (now + LOCK_TTL_MS)) (some fs2.1) 0),
       fs2.2.fence⟩
    let rs4 := readLockFn s3
    (match rs4.1 with
     | some stored => stored.token == token
     | none => false, rs4.2)

/-- refresh (lock.ts:213-227): re-read, keep going only while the token
still matches, then re-write the record with a refreshed expiry and a
bumped fence. -/
def refreshFn (token : String) (now : Int) (s : LockStore) :
    Bool × LockStore :=
  let rs1 := readLockFn s
  match rs1.1 with
  | none => (false, rs1.2)
  | some rec0 =>
    if !(rec0.token == token) then (false, rs1.2)
    else
      let fs2 := bumpFenceFn rec0.fence rs1.2
      (true,
       ⟨some (.record (some token) (some (now + LOCK_TTL_MS)) (some fs2.1) 0),
        fs2.2.fence⟩)

/-- release (lock.ts:229-235): delete the record while still owned by this
token. -/
def releaseLockFn (token : String) (s : LockStore) : LockStore :=
  let rs1 := readLockFn s
  match rs1.1 with
  | some rec0 => if rec0.token == token then ⟨none, rs1.2.fence⟩ else rs1.2
  | none => rs1.2

/-- The operations that touch the lock cells in the model: acquisition
attempts, heartbeat refreshes, releases, and external deletion of the lock
record (a crashed holder's record expiring out of storage). None of them
writes the fence key other than through `bumpFenceFn`. -/
inductive LockOp where
  | tryAcq (token : String) (now : Int)
  | heartbeatRefresh (token : String) (now : Int)
  | releaseOp (token : String)
  | externalDeleteLock
deriving DecidableEq, Repr

/-- One step of the lock-cell state machine. -/
def stepLockFn (s : LockStore) : LockOp → LockStore
  | .tryAcq token now => (tryAcquireFn token now s).2
  | .heartbeatRefresh token now => (refreshFn token now s).2
  | .releaseOp token => releaseLockFn token s
  | .externalDeleteLock => ⟨none, s.fence⟩

/-- The successive values written to the fence counter key along a run:
an op that leaves the fence cell unchanged writes nothing, any other op
wrote the new stored baseline. -/
def fenceTrace (s : LockStore) : List LockOp → List Int
  | [] => []
  | op :: rest =>
    let s' := stepLockFn s op
    if s'.fence = s.fence then fenceTrace s' rest
    else parseFenceBaseline s'.fence :: fenceTrace s' rest

/-! ## Helper lemmas about the fence cells -/

lemma readLockFn_fence (s : LockStore) : (readLockFn s).2.fence = s.fence := by
  obtain ⟨l, f⟩ := s
  cases l with
  | none => rfl
  | some r =>
    cases r with
    | garbage g => rfl
    | record t? e? f? tag =>
      cases t? <;> cases e? <;> cases f? <;> rfl

lemma stepLockFn_fence (s : LockStore) (op : LockOp) :
    (stepLockFn s op).fence = s.fence ∨
    ∃ n, (stepLockFn s op).fence = some (.fnum n) ∧
      parseFenceBaseline s.fence < n := by
  cases op with
  | tryAcq token now =>
    rw [stepLockFn, tryAcquireFn]
    by_cases hb : lockBlocks (readLockFn s).1 token now = true
    · rw [if_pos hb]
      exact Or.inl (readLockFn_fence s)
    · rw [if_neg hb]
      right
      refine ⟨max (parseFenceBaseline (readLockFn s).2.fence)
        (prevFenceOf (readLockFn s).1) + 1, rfl, ?_⟩
      rw [readLockFn_fence s]
      have := le_max_left (parseFenceBaseline s.fence)
        (prevFenceOf (readLockFn s).1)
      omega
  | heartbeatRefresh token now =>
    rw [stepLockFn, refreshFn]
    cases hr : (readLockFn s).1 with
    | none =>
      simp only [hr]
      exact Or.inl (readLockFn_fence s)
    | some rec0 =>
      simp only [hr]
      by_cases ht : (!(rec0.token == token)) = true
      · rw [if_pos ht]
        exact Or.inl (readLockFn_fence s)
      · rw [if_neg ht]
        right
        refine ⟨max (parseFenceBaseline (readLockFn s).2.fence)
          rec0.fence + 1, rfl, ?_⟩
        rw [readLockFn_fence s]
        have := le_max_left (parseFenceBaseline s.fence) rec0.fence
        omega
  | releaseOp token =>
    left
    rw [stepLockFn, releaseLockFn]
    cases hr : (readLockFn s).1 with
    | none =>
      simp only [hr]
      exact readLockFn_fence s
    | some rec0 =>
      simp only [hr]
      by_cases ht : (rec0.token == token) = true
      · rw [if_pos ht]
        exact readLockFn_fence s
      · rw [if_neg ht]
        exact readLockFn_fence s
  | externalDeleteLock => exact Or.inl rfl

lemma fenceTrace_spec : ∀ (ops : List LockOp) (s : LockStore),
    List.Chain' (fun a b => a < b) (fenceTrace s ops) ∧
    ∀ x ∈ fenceTrace s ops, parseFenceBaseline s.fence < x := by
  intro ops
  induction ops with
  | nil =>
    intro s
    exact ⟨List.chain'_nil, by intro x hx; cases hx⟩
  | cons op rest ih =>
    intro s
    simp only [fenceTrace]
    rcases stepLockFn_fence s op with heq | ⟨n, hn, hlt⟩
    · rw [if_pos heq]
      obtain ⟨h1, h2⟩ := ih (stepLockFn s op)
      refine ⟨h1, ?_⟩
      intro x hx
      have hx2 := h2 x hx
      rwa [heq] at hx2
    · have hne : ¬((stepLockFn s op).fence = s.fence) := by
        rw [hn]
        intro hcontra
        rw [← hcontra] at hlt
        simp only [parseFenceBaseline] at hlt
        exact absurd hlt (lt_irrefl n)
      rw [if_neg hne]
      obtain ⟨h1, h2⟩ := ih (stepLockFn s op)
      have hbase : parseFenceBaseline (stepLockFn s op).fence = n := by
        rw [hn]
        rfl
      constructor
      · rw [List.chain'_cons']
        refine ⟨?_, h1⟩
        intro y hy
        have hy' : y ∈ fenceTrace (stepLockFn s op) rest :=
          List.mem_of_mem_head? hy
        have := h2 y hy'
        rw [hbase] at this ⊢
        exact this
      · intro x hx
        rcases List.mem_cons.mp hx with rfl | hx'
        · rw [hbase]
          exact hlt
        · have := h2 x hx'
          rw [hbase] at this
          exact hlt.trans this

/-! ## Claim theorem C6 -/

/-- C6: fence monotonicity — bumpFence always computes
`max(persisted counter, previous record fence) + 1` and persists the new
counter under the separate fence key; a non-blocked tryAcquire writes the
lock record carrying exactly that fence; and along any sequence of
acquisitions, heartbeat refreshes, releases and external lock-record
deletions, the successive fence values written are strictly increasing. -/
theorem claim_C6_fence_monotonic :
    (∀ prev s, bumpFenceFn prev s =
      (max (parseFenceBaseline s.fence) prev + 1,
       ⟨s.lock, some (.fnum (max (parseFenceBaseline s.fence) prev + 1))⟩)) ∧
    (∀ token now s, lockBlocks (readLockFn s).1 token now = false →
      (tryAcquireFn token now s).2 =
        ⟨some (.record (some token) (some (now + LOCK_TTL_MS))
           (some (max (parseFenceBaseline s.fence)
             (prevFenceOf (readLockFn s).1) + 1)) 0),
         some (.fnum (max (parseFenceBaseline s.fence)
           (prevFenceOf (readLockFn s).1) + 1))⟩) ∧
    (∀ ops s, List.Chain' (fun a b => a < b) (fenceTrace s ops)) := by
  refine ⟨fun prev s => rfl, ?_, fun ops s => (fenceTrace_spec ops s).1⟩
  intro token now s hb
  have hb' : ¬(lockBlocks (readLockFn s).1 token now = true) := by
    rw [hb]; exact Bool.false_ne_true
  have hstep : (tryAcquireFn token now s).2 =
      ⟨some (.record (some token) (some (now + LOCK_TTL_MS))
         (some (max (parseFenceBaseline (readLockFn s).2.fence)
           (prevFenceOf (readLockFn s).1) + 1)) 0),
       some (.fnum (max (parseFenceBaseline (readLockFn s).2.fence)
         (prevFenceOf (readLockFn s).1) + 1))⟩ := by
    rw [tryAcquireFn, if_neg hb']
    rfl
  rw [hstep, readLockFn_fence s]

/-- Witness for C6: a first acquisition on an empty store writes the record
with fence 1 and persists 1 under the fence key. -/
theorem claim_C6_witness :
    (tryAcquireFn "t" 0 ⟨none, none⟩).2 =
      ⟨some (.record (some "t") (some 10000) (some 1) 0),
       some (.fnum 1)⟩ :=
  (claim_C6_fence_monotonic.2.1 "t" 0 ⟨none, none⟩ rfl).trans (by decide)

/-! ## The two revisions of PeerIdLease.release -/

/-- Ternary release state of the second-revision handle
(peer-lease.ts:539). -/
inductive RelState where
  | idle
  | staged
  | flushed
deriving DecidableEq, Repr

/-- Errors a release call can surface. -/
inductive RelError where
  | emptyVersion
  | doubleRelease
  | flushFailed
deriving DecidableEq, Repr

/-- First-revision handle (peer-lease.ts:94-136): tracks only whether the
release task exists. -/
structure Handle1 where
  taskPresent : Bool
deriving DecidableEq, Repr

/-- First-revision PeerIdLease.release (peer-lease.ts:116-135), sequential
model with the flush outcome as a parameter: reject empty versions, throw on
a second call while the release task exists, and reset the task on a failed
flush so release may be retried. -/
def rev1Release (flushOk : Bool) (version : String) (h : Handle1) :
    Handle1 × Option RelError :=
  if version = "" then (h, some .emptyVersion)
  else if h.taskPresent then (h, some .doubleRelease)
  else if flushOk then (⟨true⟩, none) else (⟨false⟩, some .flushFailed)

/-- Second-revision handle (peer-lease.ts:534-586): the release task flag
and the ternary release state. -/
structure Handle2 where
  taskPresent : Bool
  relState : RelState
deriving DecidableEq, Repr

/-- Outcome of a second-revision release call: the new handle, the surfaced
error, and whether this call staged respectively flushed. -/
structure Rev2Result where
  handle : Handle2
  error : Option RelError
  didStage : Bool
  didFlush : Bool
deriving DecidableEq, Repr

/-- Second-revision PeerIdLease.release (peer-lease.ts:557-581), sequential
model: reject empty versions; while a release task exists return it without
staging or flushing again; otherwise stage, then flush — success leaves the
handle flushed, failure resets it to idle with no task so the call may be
retried. -/
def rev2Release (flushOk : Bool) (version : String) (h : Handle2) :
    Rev2Result :=
  if version = "" then ⟨h, some .emptyVersion, false, false⟩
  else if h.taskPresent then ⟨h, none, false, false⟩
  else if flushOk then ⟨⟨true, .flushed⟩, none, true, true⟩
  else ⟨⟨false, .idle⟩, some .flushFailed, true, true⟩

/-! ## Claim theorem C9 -/

/-- C9: double-release policy — in the first revision a second release call
while the task exists throws the misuse error and leaves the handle alone;
in the second revision a second call returns the in-flight or completed task
without staging or flushing again and without error; and in the second
revision a failed flush resets the handle to idle so an immediate retry
stages and flushes again. -/
theorem claim_C9_double_release :
    (∀ flushOk version h, version ≠ "" → h.taskPresent = true →
      rev1Release flushOk version h = (h, some .doubleRelease)) ∧
    (∀ flushOk version h, version ≠ "" → h.taskPresent = true →
      rev2Release flushOk version h = ⟨h, none, false, false⟩) ∧
    (∀ version s0, version ≠ "" →
      rev2Release false version ⟨false, s0⟩ =
        ⟨⟨false, .idle⟩, some .flushFailed, true, true⟩) ∧
    (∀ version s0, version ≠ "" →
      rev2Release true version ⟨false, s0⟩ =
        ⟨⟨true, .flushed⟩, none, true, true⟩) := by
  refine ⟨?_, ?_, ?_, ?_⟩
  · intro flushOk version h hv ht
    rw [rev1Release, if_neg hv, if_pos ht]
  · intro flushOk version h hv ht
    rw [rev2Release, if_neg hv, if_pos ht]
  · intro version s0 hv
    rw [rev2Release, if_neg hv]
    rfl
  · intro version s0 hv
    rw [rev2Release, if_neg hv]
    rfl

/-- Witness for C9: a second release call on a handle whose task exists. -/
theorem claim_C9_witness :
    rev1Release true "v" ⟨true⟩ = (⟨true⟩, some .doubleRelease) ∧
    rev2Release true "v" ⟨true, .flushed⟩ =
      ⟨⟨true, .flushed⟩, none, false, false⟩ ∧
    rev2Release false "v" ⟨false, .idle⟩ =
      ⟨⟨false, .idle⟩, some .flushFailed, true, true⟩ :=
  ⟨claim_C9_double_release.1 true "v" ⟨true⟩ (by decide) rfl,
   claim_C9_double_release.2.1 true "v" ⟨true, .flushed⟩ (by decide) rfl,
   claim_C9_double_release.2.2.1 "v" .idle (by decide)⟩

/-! ## Claim C8: storage corruption -/

/-- Counterexample to C8 as stated: with a corrupted pending buffer, a full
withState cycle reads it as empty but leaves the corrupted raw value in
storage — the key is not discarded. -/
theorem claim_C8_counterexample :
    (withStateRun (fun st => (st, ())) 0
        ⟨none, some (PRaw.garbage 0)⟩).2.pending = some (PRaw.garbage 0) ∧
    parsePendingEntries (some (PRaw.garbage 0)) = [] ∧
    (withStateRun (fun st => (st, ())) 0
        ⟨none, some (PRaw.garbage 0)⟩).2.pending ≠ none :=
  ⟨rfl, rfl, by decide⟩

/-- C8 amended: every malformed persisted value is read as the empty or
absent structure and reading never fails; the corrupted lock key is removed
by the read itself; a corrupted state value disappears when the state is
persisted at the end of the mutation cycle (the state key is rewritten or
removed, never left holding garbage); but a corrupted pending buffer, while
read as empty, is NOT discarded — its raw value survives the cycle. -/
theorem claim_C8_corruption_amended :
    (∀ g, readStateFn (some (.garbage g)) = ⟨[], []⟩) ∧
    (∀ t, readStateFn (some (.doc none none t)) = ⟨[], []⟩) ∧
    (∀ g f, readLockFn ⟨some (.garbage g), f⟩ = (none, ⟨none, f⟩)) ∧
    (∀ e fe t f, readLockFn ⟨some (.record none e fe t), f⟩ =
      (none, ⟨none, f⟩)) ∧
    (∀ g, parsePendingEntries (some (.garbage g)) = []) ∧
    (∀ (α : Type) (mutator : LeaseState → LeaseState × α) now s g,
      s.pending = some (PRaw.garbage g) →
      (withStateRun mutator now s).2.pending = some (PRaw.garbage g)) ∧
    (∀ (α : Type) (mutator : LeaseState → LeaseState × α) now s g,
      (withStateRun mutator now s).2.state ≠ some (SRaw.garbage g)) := by
  refine ⟨fun g => rfl, fun t => rfl, fun g f => rfl, ?_, fun g => rfl,
    ?_, ?_⟩
  · intro e fe t f
    cases e <;> cases fe <;> rfl
  · intro α mutator now s g hp
    obtain ⟨hstate, hpending⟩ := s
    simp only at hp
    subst hp
    rfl
  · intro α mutator now s g hcontra
    have hwrite : ∀ st : LeaseState, writeStateFn st ≠ some (.garbage g) := by
      intro st
      rw [writeStateFn]
      by_cases hcond : st.available = [] ∧ st.active = []
      · rw [if_pos hcond]
        exact fun h => Option.noConfusion h
      · rw [if_neg hcond]
        intro h
        exact SRaw.noConfusion (Option.some.injEq .. ▸ h)
    exact hwrite _ hcontra

/-- Witness for the amended C8 at a concrete corrupted pending buffer. -/
theorem claim_C8_witness :
    (withStateRun (fun st => (st, ())) 1
        ⟨none, some (PRaw.garbage 1)⟩).2.pending = some (PRaw.garbage 1) :=
  claim_C8_corruption_amended.2.2.2.2.2.1 Unit (fun st => (st, ())) 1
    ⟨none, some (PRaw.garbage 1)⟩ 1 rfl

end PeerLease

